import Mathlib

/-!
Verification development for the maritime traffic network code in
`src/models/maritime_traffic_network.py`.

We shallowly embed the graph data model and the operations
`make_graph_from_waypoints`, `prune_graph`, `refine_graph_from_paths`,
the outcome logic of `trajectory_to_path_sspd`, its hop-skipping
refinement pass, and a model (from the design document) of the SSPD
shape-distance metric, and prove properties of them.

Modelling conventions:
* Machine floats become exact rationals (`ℚ`); `NaN` metric values become
  `Option.none`.
* A networkx `DiGraph` becomes an association-list digraph keyed by ordered
  node pairs, with node and edge attribute records.
* Geometric primitives that live in a collaborator module
  (`geometry_utils.clip_trajectory_between_WPs`, bearings, waypoint
  location) are abstracted as function parameters, so the theorems hold for
  every geometry.
* Python `try/except` around the per-pair matching step becomes an
  `Except`-valued parameter.
-/

attribute [local semireducible] Rat.add Rat.sub Rat.mul Rat.inv

namespace MTN

/-- Edge attributes of a waypoint connection as carried by the graph:
`weight` (passage count), `inverse_weight` and the compass `direction`
of the edge.  (`length` and the shapely geometry are not needed by any
property proved here.) -/
structure EdgeData where
  weight : ℚ
  inverse_weight : ℚ
  direction : ℚ
deriving DecidableEq

/-- Node attributes used by pruning: the circular mean course before and
after the waypoint.  `none` models a missing attribute, which in the code
raises a `KeyError` caught by the pruning loop's bare `except`. -/
structure NodeData where
  cog_before : Option ℚ
  cog_after : Option ℚ
deriving DecidableEq

/-- A directed graph in the style of networkx `DiGraph`: a node list with
attributes and an edge association list keyed by ordered node pairs
(no parallel edges in networkx, hence edge keys are unique in any graph
the pipeline builds). -/
structure Digraph where
  nodes : List (Nat × NodeData)
  edges : List ((Nat × Nat) × EdgeData)
deriving DecidableEq

/-- Attribute lookup `G.nodes[u]`. -/
def nodeAttr (G : Digraph) (u : Nat) : Option NodeData :=
  (G.nodes.find? (fun p => p.1 == u)).map (fun p => p.2)

/-- Successors of `u` in `G`, in edge-list order. -/
def successors (G : Digraph) (u : Nat) : List Nat :=
  (G.edges.filter (fun e => e.1.1 == u)).map (fun e => e.1.2)

/-- networkx `G.remove_edge(u, v)`: drops the edge keyed `k`, never a node. -/
def removeEdge (G : Digraph) (k : Nat × Nat) : Digraph :=
  { G with edges := G.edges.filter (fun e => decide (e.1 ≠ k)) }

/-- Sequential removal of a list of edge keys. -/
def removeEdges (G : Digraph) (ks : List (Nat × Nat)) : Digraph :=
  ks.foldl removeEdge G

/-- Existence of a directed walk from `u` to `v` that uses at most `k`
edges.  This is the specification-side notion "a path whose length in
edge count is at most `k`". -/
def reachableWithinEdges (G : Digraph) (v : Nat) : Nat → Nat → Bool
  | 0, u => u == v
  | Nat.succ k, u => u == v || (successors G u).any (fun w => reachableWithinEdges G v k w)

/-- Fuel-bounded search embedding networkx `shortest_path` on an unweighted
digraph: returns a node sequence from `u` to `v` of minimum hop count among
those using at most `fuel` edges, `none` if there is none. -/
def shortestPathFuel (G : Digraph) (v : Nat) : Nat → Nat → Option (List Nat)
  | 0, u => if u == v then some [u] else none
  | Nat.succ k, u =>
    if u == v then some [u] else
    (successors G u).foldl
      (fun acc w =>
        match shortestPathFuel G v k w with
        | none => acc
        | some p =>
          match acc with
          | none => some (u :: p)
          | some q => if p.length + 1 < q.length then some (u :: p) else acc)
      none

/-- `nx.shortest_path(G, u, v)` (hop metric); the fuel `G.nodes.length`
covers every simple path. -/
def shortestPath (G : Digraph) (u v : Nat) : Option (List Nat) :=
  shortestPathFuel G v G.nodes.length u

/-- `nx.has_path(G, u, v)`: the shortest-path search succeeds. -/
def hasPath (G : Digraph) (u v : Nat) : Bool :=
  (shortestPath G u v).isSome

/-- Python `%` on nonnegative reals with modulus `m > 0`:
`x - m * ⌊x / m⌋`. -/
def pmod (x m : ℚ) : ℚ := x - m * (⌊x / m⌋ : ℚ)

/-- The angle computation of `prune_graph` and `make_graph_from_waypoints`:
`np.abs(wpDir - edgeDir + 180) % 360 - 180`. -/
def angleDev (wpDir edgeDir : ℚ) : ℚ :=
  pmod |wpDir - edgeDir + 180| 360 - 180

/-- Direction-filter test of `prune_graph` for the edge `(u, v)` with data
`d`: the edge is marked when the deviation of its direction from `u`'s
course-after and from `v`'s course-before both exceed 90°, or when either
course attribute is missing (the `except` branch marks the edge). -/
def dirMarkTest (G : Digraph) (u v : Nat) (d : EdgeData) : Bool :=
  match nodeAttr G u, nodeAttr G v with
  | some nu, some nv =>
    match nu.cog_after, nv.cog_before with
    | some ca, some cb =>
      decide (90 < |angleDev ca d.direction|) && decide (90 < |angleDev cb d.direction|)
    | _, _ => true
  | _, _ => true

/-- First pass of `prune_graph`: edges marked by the direction filter,
in edge-list order. -/
def directionMarked (G : Digraph) : List (Nat × Nat) :=
  (G.edges.filter (fun e => dirMarkTest G e.1.1 e.1.2 e.2)).map (fun e => e.1)

/-- Embeds `nx.has_path(G_temp, u, v) and len(nx.shortest_path(G_temp, u, v)) <= 5`
from the redundancy filter (note: `len` counts nodes of the path). -/
def redundantAt (G : Digraph) (u v : Nat) : Bool :=
  match shortestPath G u v with
  | some p => decide (p.length ≤ 5)
  | none => false

/-- Keys of the edges of weight below the threshold in a list, in order:
these are exactly the edges the redundancy filter has removed from its
working copy after traversing the list. -/
def lowKeys (minPassages : ℚ) (l : List ((Nat × Nat) × EdgeData)) : List (Nat × Nat) :=
  (l.filter (fun e => decide (e.2.weight < minPassages))).map (fun e => e.1)

/-- Second pass of `prune_graph` (the redundancy filter): walks the edge
list carrying the working copy `Gtemp` and the accumulating removal list.
Every edge of weight `< min_passages` is removed from the working copy,
cumulatively and permanently; it is appended to the removal list when a
path between its endpoints of at most 5 nodes survives in the working copy
and it is not already on the list. -/
def prunePass (minPassages : ℚ) :
    List ((Nat × Nat) × EdgeData) → Digraph → List (Nat × Nat) → List (Nat × Nat)
  | [], _, marked => marked
  | e :: rest, Gtemp, marked =>
    if e.2.weight < minPassages then
      let Gt := removeEdge Gtemp e.1
      let marked' :=
        if redundantAt Gt e.1.1 e.1.2 = true ∧ e.1 ∉ marked then marked ++ [e.1] else marked
      prunePass minPassages rest Gt marked'
    else
      prunePass minPassages rest Gtemp marked

/-- Embedding of `prune_graph`: direction filter, then redundancy filter
on a working copy, then all marked removals applied at once. -/
def prune_graph (G : Digraph) (minPassages : ℚ) : Digraph :=
  removeEdges G (prunePass minPassages G.edges G (directionMarked G))

/-- One step of the passage-count accumulator `coord_dict`:
increment the count of key `k`, creating it at 1 when absent. -/
def bump : List ((Nat × Nat) × Nat) → (Nat × Nat) → List ((Nat × Nat) × Nat)
  | [], k => [(k, 1)]
  | (k', n) :: rest, k =>
    if k' = k then (k', n + 1) :: rest else (k', n) :: bump rest k

/-- Accumulate one count for each consecutive distinct pair of a passage
sequence (`if row != col` — no self loops). -/
def addPairs : List ((Nat × Nat) × Nat) → List Nat → List ((Nat × Nat) × Nat)
  | m, a :: b :: rest => addPairs (if a ≠ b then bump m (a, b) else m) (b :: rest)
  | m, _ => m

/-- `OrderedDict.fromkeys`: de-duplication keeping the first occurrence. -/
def dedupFirst (l : List Nat) : List Nat :=
  l.foldl (fun acc x => if x ∈ acc then acc else acc ++ [x]) []

/-- The `coord_dict` built by `make_graph_from_waypoints` from the
per-trajectory waypoint-passage sequences: each sequence is first
de-duplicated, and sequences of fewer than 2 waypoints create no edge. -/
def buildDict (passageLists : List (List Nat)) : List ((Nat × Nat) × Nat) :=
  passageLists.foldl
    (fun m pl =>
      let ps := dedupFirst pl
      if 1 < ps.length then addPairs m ps else m)
    []

/-- Embedding of `make_graph_from_waypoints`.  The geometric derivation of
each trajectory's passage sequence (distance to convex hulls plus course
agreement) lives in collaborator primitives, so the per-trajectory raw
passage sequences and the waypoint attribute and bearing tables are
parameters; nodes are `0 .. nClusters - 1` as created by
`nx.from_scipy_sparse_array` on an `nClusters × nClusters` matrix, and each
accumulated pair becomes an edge with `weight` the passage count and
`inverse_weight = 1 / weight`. -/
def make_graph_from_waypoints (nClusters : Nat) (attrs : Nat → NodeData)
    (bearing : Nat → Nat → ℚ) (passageLists : List (List Nat)) : Digraph :=
  let dict := buildDict passageLists
  { nodes := (List.range nClusters).map (fun i => (i, attrs i)),
    edges := dict.map (fun e => (e.1, ⟨(e.2 : ℚ), 1 / (e.2 : ℚ), bearing e.1.1 e.1.2⟩)) }

/-- Transit speed of one edge passage in `refine_graph_from_paths`:
`length / (t2 - t1)` when `t2 > t1`, and `0` otherwise (the code's guard
against a non-positive elapsed time). -/
def transitSpeed (len t1 t2 : ℚ) : ℚ :=
  if t1 < t2 then len / (t2 - t1) else 0

/-- Reset of every edge's `weight` and `inverse_weight` to 0 at the start
of `refine_graph_from_paths`. -/
def resetWeights (G : Digraph) : Digraph :=
  { G with
    edges := G.edges.map (fun e => (e.1, { e.2 with weight := 0, inverse_weight := 0 })) }

/-- `G_refined[u][v]['weight'] += 1` (paths are assumed to be walks on the
graph, as produced by the matcher; a pair that is not an edge changes
nothing). -/
def bumpEdgeWeight (G : Digraph) (u v : Nat) : Digraph :=
  { G with
    edges := G.edges.map (fun e =>
      if e.1 = (u, v) then (e.1, { e.2 with weight := e.2.weight + 1 }) else e) }

/-- Consecutive pairs `(path[j], path[j+1])` of a path. -/
def pathPairs (l : List Nat) : List (Nat × Nat) := l.zip l.tail

/-- Result of graph refinement: the refined graph and the per-passage
transit-speed samples recorded into the `speeds` accumulator, keyed by
edge. -/
structure RefineResult where
  graph : Digraph
  speeds : List ((Nat × Nat) × ℚ)

/-- Embedding of `refine_graph_from_paths`: reset all weights, accumulate
one weight unit and one transit-speed sample per consecutive pair of every
path, then drop every edge whose accumulated weight is 0.  `clip` abstracts
`geometry_utils.clip_trajectory_between_WPs`, giving for a waypoint pair the
clipped sub-segment's length and its first and last timestamps; the
per-edge summary statistics (means, deviations, confidence intervals) are
derived data not modelled here. -/
def refine_graph_from_paths (G : Digraph) (paths : List (List Nat))
    (clip : Nat → Nat → ℚ × ℚ × ℚ) : RefineResult :=
  let init := resetWeights G
  let acc := paths.foldl
    (fun (acc : Digraph × List ((Nat × Nat) × ℚ)) path =>
      (pathPairs path).foldl
        (fun acc2 uv =>
          let c := clip uv.1 uv.2
          (bumpEdgeWeight acc2.1 uv.1 uv.2,
           acc2.2 ++ [(uv, transitSpeed c.1 c.2.1 c.2.2)]))
        acc)
    (init, [])
  { graph := { acc.1 with edges := acc.1.edges.filter (fun e => decide (e.2.weight ≠ 0)) },
    speeds := acc.2 }

/-- Terminal outcome tags of the path matcher. -/
inductive Outcome
  | success
  | attempt
  | noPath
  | noIntersects
deriving DecidableEq

/-- One row of the matcher's evaluation output: outcome tag, emitted path,
SSPD (`none` models `NaN`) and fraction of the trajectory covered. -/
structure EvalResult where
  message : Outcome
  path : List Nat
  sspd : Option ℚ
  fraction_covered : ℚ
deriving DecidableEq

/-- Outcome logic of `trajectory_to_path_sspd` over the pruned graph `G`.
`passages` is the reconciled passage list of steps 1–3 (endpoint detection
and intersection search are geometric collaborator calls).  `coreMatch`
abstracts the `try` block of step 5 (per-pair sub-path matching, optional
refinement and evaluation): `.ok` carries the stitched path, its SSPD and
coverage, `.error` models the block raising.  `fallbackEval` abstracts the
geometric evaluation (SSPD, coverage) done for the fallback path of the
`except` branch. -/
def trajectory_to_path_sspd (G : Digraph) (passages : List Nat)
    (coreMatch : Except Unit (List Nat × ℚ × ℚ))
    (fallbackEval : List Nat → ℚ × ℚ) : EvalResult :=
  if 2 ≤ passages.length then
    match coreMatch with
    | .ok r => { message := .success, path := r.1, sspd := some r.2.1, fraction_covered := r.2.2 }
    | .error _ =>
      match shortestPath G (passages.headD 0) (passages.getLastD 0) with
      | some p =>
        { message := .attempt, path := p, sspd := some (fallbackEval p).1,
          fraction_covered := (fallbackEval p).2 }
      | none => { message := .noPath, path := [], sspd := none, fraction_covered := 0 }
  else
    { message := .noIntersects, path := [], sspd := none, fraction_covered := 0 }

/-- Loop body of the `algorithm='refined'` hop-skipping pass: on each window
`[A, B, C, ...]`, when a direct connection `A → C` exists in the channel
graph (`valid`) and the length-weighted comparison favours it (`better`),
emit `C` and skip `B`, else emit `B` and slide by one. -/
def refineAux (valid : Nat → Nat → Bool) (better : Nat → Nat → Nat → Bool) :
    List Nat → List Nat
  | a :: b :: c :: rest =>
    if valid a c && better a b c then c :: refineAux valid better (c :: rest)
    else b :: refineAux valid better (b :: c :: rest)
  | _ => []
termination_by l => l.length
decreasing_by
  all_goals simp

/-- The full hop-skipping refinement pass of `trajectory_to_path_sspd`
(`algorithm='refined'`): start from `path[0]`, run the sliding-triple
loop, and append `path[-1]` when the result does not already end in it.
`valid` abstracts `geometry_utils.is_valid_path(G_channel, [A, C])`,
`better` the SSPD / length comparison of the detour `A-B-C` against the
direct hop `A-C`. -/
def refinePathPass (valid : Nat → Nat → Bool) (better : Nat → Nat → Nat → Bool)
    (path : List Nat) : List Nat :=
  match path with
  | [] => []
  | p0 :: rest =>
    let r := p0 :: refineAux valid better (p0 :: rest)
    if r.getLastD 0 ≠ path.getLastD 0 then r ++ [path.getLastD 0] else r

/-- Modelled from the spec: squared Euclidean distance between two sample
points.  The repository calls `geometry_utils.sspd`, whose source file is
not in the repository snapshot (only an outdated checkpoint of
`geometry_utils` is), so the metric is modelled from §4.1 of the design
document; squared distances keep the arithmetic rational, and both claimed
properties (symmetry, vanishing on a coincident pair) are invariant under
this monotone change of the pointwise distance. -/
def distSq (p q : ℚ × ℚ) : ℚ := (p.1 - q.1) ^ 2 + (p.2 - q.2) ^ 2

/-- Modelled from the spec: squared distance from the point `p` to the
segment from `a` to `b` (the clamped orthogonal projection; a zero-length
segment is a point). -/
def distSqPointSeg (p a b : ℚ × ℚ) : ℚ :=
  let d1 := b.1 - a.1
  let d2 := b.2 - a.2
  let den := d1 ^ 2 + d2 ^ 2
  if den = 0 then distSq p a
  else
    let t := max 0 (min 1 (((p.1 - a.1) * d1 + (p.2 - a.2) * d2) / den))
    distSq p (a.1 + t * d1, a.2 + t * d2)

/-- The segments of the polyline through the sample points of a curve. -/
def segsOf (c : List (ℚ × ℚ)) : List ((ℚ × ℚ) × (ℚ × ℚ)) := c.zip c.tail

/-- Minimum of a list of rationals (0 for the empty list, which no caller
reaches on a nonempty curve). -/
def minList : List ℚ → ℚ
  | [] => 0
  | x :: xs => xs.foldl min x

/-- Modelled from the spec: (squared) distance from a sample point to the
continuous curve through the samples of the other curve — the minimum over
that curve's segments; a single-point curve degenerates to point distance. -/
def pointToCurveSq (p : ℚ × ℚ) (c : List (ℚ × ℚ)) : ℚ :=
  match c with
  | [] => 0
  | [q] => distSq p q
  | _ => minList ((segsOf c).map (fun s => distSqPointSeg p s.1 s.2))

/-- Modelled from the spec: mean over the sample points of `A` of the
distance to the continuous curve `B` (`d(A→B)`). -/
def meanDistTo (A B : List (ℚ × ℚ)) : ℚ :=
  (A.map (fun p => pointToCurveSq p B)).sum / A.length

/-- Modelled from the spec: the symmetric segment-path distance
`SSPD = (d(A→B) + d(B→A)) / 2`. -/
def sspd (A B : List (ℚ × ℚ)) : ℚ := (meanDistTo A B + meanDistTo B A) / 2

/-- Node attributes of the running example (courses present and aligned
with the edge directions, so the direction filter marks nothing). -/
def exNode : NodeData := ⟨some 0, some 0⟩

/-- A concrete six-waypoint network: a sparse direct edge `0 → 1` of
weight 1 beside a well-travelled five-edge chain `0 → 2 → 3 → 4 → 5 → 1`. -/
def exGraph : Digraph :=
  { nodes := [(0, exNode), (1, exNode), (2, exNode), (3, exNode), (4, exNode), (5, exNode)],
    edges := [((0, 1), ⟨1, 1, 0⟩), ((0, 2), ⟨10, 1/10, 0⟩), ((2, 3), ⟨10, 1/10, 0⟩),
              ((3, 4), ⟨10, 1/10, 0⟩), ((4, 5), ⟨10, 1/10, 0⟩), ((5, 1), ⟨10, 1/10, 0⟩)] }

/-- A concrete trajectory clipping: every sub-segment has length 4 and
equal first and last timestamps (elapsed time 0). -/
def exClip : Nat → Nat → ℚ × ℚ × ℚ := fun _ _ => (4, 2, 2)

/-- A concrete fallback evaluation for the matcher example. -/
def exEval : List Nat → ℚ × ℚ := fun _ => (0, 1)

/-!  Helper lemmas. -/

/-- A fold preserves an invariant preserved by every step. -/
theorem foldl_preserve {α β : Type} (P : α → Prop) (f : α → β → α)
    (h : ∀ a b, P a → P (f a b)) : ∀ (l : List β) (a : α), P a → P (l.foldl f a)
  | [], _, ha => ha
  | b :: l, a, ha => foldl_preserve P f h l (f a b) (h a b ha)

theorem mem_removeEdge {G : Digraph} {k : Nat × Nat} {e : (Nat × Nat) × EdgeData} :
    e ∈ (removeEdge G k).edges ↔ e ∈ G.edges ∧ e.1 ≠ k := by
  simp [removeEdge, List.mem_filter]

theorem removeEdges_nodes : ∀ (ks : List (Nat × Nat)) (G : Digraph),
    (removeEdges G ks).nodes = G.nodes
  | [], _ => rfl
  | k :: ks, G => removeEdges_nodes ks (removeEdge G k)

theorem mem_removeEdges : ∀ (ks : List (Nat × Nat)) (G : Digraph)
    (e : (Nat × Nat) × EdgeData),
    e ∈ (removeEdges G ks).edges ↔ e ∈ G.edges ∧ e.1 ∉ ks := by
  intro ks
  induction ks with
  | nil => intro G e; simp [removeEdges]
  | cons k ks ih =>
    intro G e
    have step : removeEdges G (k :: ks) = removeEdges (removeEdge G k) ks := rfl
    rw [step, ih (removeEdge G k) e, mem_removeEdge]
    simp [and_assoc, and_comm, not_or]
    tauto

/-- An edge key appearing nowhere in the traversed list passes through the
redundancy filter's accumulator untouched. -/
theorem prunePass_notmem (minP : ℚ) : ∀ (l : List ((Nat × Nat) × EdgeData))
    (Gt : Digraph) (m : List (Nat × Nat)) (k : Nat × Nat),
    k ∉ l.map (fun e => e.1) →
    (k ∈ prunePass minP l Gt m ↔ k ∈ m) := by
  intro l
  induction l with
  | nil => intro Gt m k _; simp [prunePass]
  | cons e rest ih =>
    intro Gt m k hk
    simp only [List.map_cons, List.mem_cons, not_or] at hk
    obtain ⟨hne, hk⟩ := hk
    simp only [prunePass]
    by_cases hw : e.2.weight < minP
    · simp only [if_pos hw]
      rw [ih _ _ k hk]
      by_cases hc : redundantAt (removeEdge Gt e.1) e.1.1 e.1.2 = true ∧ e.1 ∉ m
      · simp [if_pos hc, hne]
      · simp [if_neg hc]
    · simp only [if_neg hw]
      exact ih _ _ k hk

/-- Every key the redundancy filter adds to the removal list belongs to an
edge of the traversed list whose weight is below the threshold. -/
theorem prunePass_mem_sup (minP : ℚ) : ∀ (l : List ((Nat × Nat) × EdgeData))
    (Gt : Digraph) (m : List (Nat × Nat)) (k : Nat × Nat),
    k ∈ prunePass minP l Gt m →
    k ∈ m ∨ ∃ d, (k, d) ∈ l ∧ d.weight < minP := by
  intro l
  induction l with
  | nil => intro Gt m k h; simp [prunePass] at h; exact Or.inl h
  | cons e rest ih =>
    intro Gt m k h
    simp only [prunePass] at h
    by_cases hw : e.2.weight < minP
    · rw [if_pos hw] at h
      rcases ih _ _ k h with h' | ⟨d, hd, hwd⟩
      · by_cases hc : redundantAt (removeEdge Gt e.1) e.1.1 e.1.2 = true ∧ e.1 ∉ m
        · rw [if_pos hc] at h'
          rcases List.mem_append.1 h' with h'' | h''
          · exact Or.inl h''
          · simp only [List.mem_singleton] at h''
            subst h''
            exact Or.inr ⟨e.2, List.mem_cons_self _ _, hw⟩
        · rw [if_neg hc] at h'
          exact Or.inl h'
      · exact Or.inr ⟨d, List.mem_cons_of_mem _ hd, hwd⟩
    · rw [if_neg hw] at h
      rcases ih _ _ k h with h' | ⟨d, hd, hwd⟩
      · exact Or.inl h'
      · exact Or.inr ⟨d, List.mem_cons_of_mem _ hd, hwd⟩

/-- In a list with pairwise distinct edge keys (networkx has no parallel
edges) the data attached to a key is unique. -/
theorem key_nodup_data_eq : ∀ {l : List ((Nat × Nat) × EdgeData)},
    (l.map (fun e => e.1)).Nodup → ∀ {k : Nat × Nat} {d1 d2 : EdgeData},
    (k, d1) ∈ l → (k, d2) ∈ l → d1 = d2 := by
  intro l
  induction l with
  | nil => intro _ k d1 d2 h1 _; simp at h1
  | cons e rest ih =>
    intro hnd k d1 d2 h1 h2
    simp only [List.map_cons, List.nodup_cons] at hnd
    obtain ⟨hke, hnd⟩ := hnd
    rcases List.mem_cons.1 h1 with h1' | h1' <;> rcases List.mem_cons.1 h2 with h2' | h2'
    · exact (Prod.ext_iff.1 (h1'.trans h2'.symm)).2
    · exact absurd (List.mem_map.2 ⟨(k, d2), h2', by rw [← h1']⟩) hke
    · exact absurd (List.mem_map.2 ⟨(k, d1), h1', by rw [← h2']⟩) hke
    · exact ih hnd h1' h2'

/-- An edge whose direction test fails is not marked by the direction
filter when edge keys are pairwise distinct. -/
theorem not_mem_directionMarked {G : Digraph}
    (hnd : (G.edges.map (fun e => e.1)).Nodup) {u v : Nat} {d : EdgeData}
    (hmem : ((u, v), d) ∈ G.edges) (ht : dirMarkTest G u v d = false) :
    (u, v) ∉ directionMarked G := by
  intro h
  simp only [directionMarked, List.mem_map, List.mem_filter] at h
  obtain ⟨e, ⟨he, htest⟩, hkey⟩ := h
  obtain ⟨⟨eu, ev⟩, ed⟩ := e
  simp only [Prod.mk.injEq] at hkey
  obtain ⟨rfl, rfl⟩ := hkey
  have : ed = d := key_nodup_data_eq hnd he hmem
  subst this
  rw [ht] at htest
  exact Bool.false_ne_true htest

/-- Characterisation of the redundancy filter at the position of one edge
of the traversed list: the key ends up marked exactly when it started
marked, or its weight is below the threshold, it was not direction-marked,
and a path of at most 5 nodes joins its endpoints in the working copy —
which by then equals the start graph minus all earlier below-threshold
edges and minus the edge itself. -/
theorem prunePass_split_iff (minP : ℚ) :
    ∀ (pre : List ((Nat × Nat) × EdgeData)) (e : (Nat × Nat) × EdgeData)
      (post : List ((Nat × Nat) × EdgeData)) (Gt : Digraph) (m : List (Nat × Nat)),
      ((pre ++ e :: post).map (fun x => x.1)).Nodup →
      (e.1 ∈ prunePass minP (pre ++ e :: post) Gt m ↔
        e.1 ∈ m ∨ (e.2.weight < minP ∧ e.1 ∉ m ∧
          redundantAt (removeEdges Gt (lowKeys minP pre ++ [e.1])) e.1.1 e.1.2 = true)) := by
  intro pre
  induction pre with
  | nil =>
    intro e post Gt m hnd
    simp only [List.nil_append, List.map_cons, List.nodup_cons] at hnd
    obtain ⟨hke, _⟩ := hnd
    simp only [List.nil_append, prunePass]
    by_cases hw : e.2.weight < minP
    · simp only [if_pos hw]
      rw [prunePass_notmem minP _ _ _ _ hke]
      have hGt : removeEdges Gt (lowKeys minP [] ++ [e.1]) = removeEdge Gt e.1 := rfl
      rw [hGt]
      by_cases hc : redundantAt (removeEdge Gt e.1) e.1.1 e.1.2 = true ∧ e.1 ∉ m
      · simp only [if_pos hc]
        simp [hw, hc.1, hc.2]
      · simp only [if_neg hc]
        constructor
        · intro h; exact Or.inl h
        · rintro (h | ⟨_, hm, hr⟩)
          · exact h
          · exact absurd ⟨hr, hm⟩ hc
    · simp only [if_neg hw]
      rw [prunePass_notmem minP _ _ _ _ hke]
      simp [hw]
  | cons f pre' ih =>
    intro e post Gt m hnd
    simp only [List.cons_append, List.map_cons, List.nodup_cons] at hnd
    obtain ⟨hkf, hnd⟩ := hnd
    have hfe : f.1 ≠ e.1 := by
      intro h
      exact hkf (List.mem_map.2 ⟨e, by simp, h.symm⟩)
    simp only [List.cons_append, prunePass, List.append_eq]
    by_cases hwf : f.2.weight < minP
    · simp only [if_pos hwf]
      by_cases hc : redundantAt (removeEdge Gt f.1) f.1.1 f.1.2 = true ∧ f.1 ∉ m
      · simp only [if_pos hc]
        rw [ih e post (removeEdge Gt f.1) (m ++ [f.1]) hnd]
        have hmem' : e.1 ∈ m ++ [f.1] ↔ e.1 ∈ m := by
          simp [hfe.symm]
        have hGt : removeEdges (removeEdge Gt f.1) (lowKeys minP pre' ++ [e.1]) =
            removeEdges Gt (lowKeys minP (f :: pre') ++ [e.1]) := by
          simp [lowKeys, hwf, removeEdges]
        rw [hmem', hGt]
      · simp only [if_neg hc]
        rw [ih e post (removeEdge Gt f.1) m hnd]
        have hGt : removeEdges (removeEdge Gt f.1) (lowKeys minP pre' ++ [e.1]) =
            removeEdges Gt (lowKeys minP (f :: pre') ++ [e.1]) := by
          simp [lowKeys, hwf, removeEdges]
        rw [hGt]
    · simp only [if_neg hwf]
      rw [ih e post Gt m hnd]
      have hlk : lowKeys minP (f :: pre') = lowKeys minP pre' := by
        simp [lowKeys, hwf]
      rw [hlk]

/-!  Claim theorems. -/

/-- C3, counterexample to the claim as stated.  In `exGraph` with
`min_passages = 2` the edge `(0, 1)` has weight `1 < 2`, is not marked by
the direction filter, and after its tentative removal a walk from 0 to 1
with exactly 5 edges (hence "length in edge count at most 5") exists,
yet `prune_graph` keeps the edge: the code tests
`len(nx.shortest_path(...)) <= 5`, which counts the 6 nodes of that walk,
not its 5 edges. -/
theorem redundancy_filter_counterexample :
    ((0, 1), ({ weight := 1, inverse_weight := 1, direction := 0 } : EdgeData)) ∈ exGraph.edges ∧
    (1 : ℚ) < 2 ∧
    (0, 1) ∉ directionMarked exGraph ∧
    reachableWithinEdges (removeEdge exGraph (0, 1)) 1 5 0 = true ∧
    ((0, 1), ({ weight := 1, inverse_weight := 1, direction := 0 } : EdgeData)) ∈
      (prune_graph exGraph 2).edges := by
  decide

/-- C3 (amended): in the redundancy filter every edge of weight below
`min_passages` is tentatively removed from the working copy, cumulatively,
whether or not the direction filter already marked it; the edge `(u, v)`
ends up on the removal list iff it was direction-marked, or its weight is
below `min_passages`, it was not direction-marked, and a path from `u` to
`v` of at most 5 nodes (at most 4 edges) exists in the graph minus all
earlier below-threshold edges and minus `(u, v)` itself; `prune_graph`
keeps the edge iff it is not on the final removal list. -/
theorem redundancy_filter_characterization (G : Digraph) (minP : ℚ)
    (pre post : List ((Nat × Nat) × EdgeData)) (u v : Nat) (d : EdgeData)
    (hnd : (G.edges.map (fun e => e.1)).Nodup)
    (hsplit : G.edges = pre ++ ((u, v), d) :: post) :
    ((u, v) ∈ prunePass minP G.edges G (directionMarked G) ↔
      (u, v) ∈ directionMarked G ∨
      (d.weight < minP ∧ (u, v) ∉ directionMarked G ∧
        redundantAt (removeEdges G (lowKeys minP pre ++ [(u, v)])) u v = true)) ∧
    (((u, v), d) ∈ (prune_graph G minP).edges ↔
      (u, v) ∉ prunePass minP G.edges G (directionMarked G)) := by
  have hmem : ((u, v), d) ∈ G.edges := by
    rw [hsplit]
    exact List.mem_append.2 (Or.inr (List.mem_cons_self _ _))
  constructor
  · have hnd' : ((pre ++ ((u, v), d) :: post).map (fun x => x.1)).Nodup := by
      rw [← hsplit]; exact hnd
    have h := prunePass_split_iff minP pre ((u, v), d) post G (directionMarked G) hnd'
    rw [hsplit]
    exact h
  · have h := mem_removeEdges (prunePass minP G.edges G (directionMarked G)) G ((u, v), d)
    rw [prune_graph, h]
    simp [hmem]

/-- Witness for the amended redundancy-filter characterisation: on the
example network the sparse edge `(0, 1)` is not marked for removal. -/
theorem redundancy_filter_characterization_witness :
    (0, 1) ∉ prunePass 2 exGraph.edges exGraph (directionMarked exGraph) := by
  have h := (redundancy_filter_characterization exGraph 2 []
      [((0, 2), ⟨10, 1/10, 0⟩), ((2, 3), ⟨10, 1/10, 0⟩), ((3, 4), ⟨10, 1/10, 0⟩),
       ((4, 5), ⟨10, 1/10, 0⟩), ((5, 1), ⟨10, 1/10, 0⟩)]
      0 1 ⟨1, 1, 0⟩ (by decide) rfl).1
  rw [h]
  decide

/-- C4: an edge whose weight reaches `min_passages` and whose direction
deviates by at most 90° (circularly) from both its source's course-after
and its target's course-before — both attributes present — is never
removed by `prune_graph`: the direction filter does not mark it and the
redundancy filter only marks below-threshold edges. -/
theorem directionally_consistent_heavy_edge_kept (G : Digraph) (minP : ℚ)
    (u v : Nat) (d : EdgeData) (nu nv : NodeData) (ca cb : ℚ)
    (hnd : (G.edges.map (fun e => e.1)).Nodup)
    (hmem : ((u, v), d) ∈ G.edges)
    (hw : minP ≤ d.weight)
    (hu : nodeAttr G u = some nu) (hv : nodeAttr G v = some nv)
    (hca : nu.cog_after = some ca) (hcb : nv.cog_before = some cb)
    (h1 : |angleDev ca d.direction| ≤ 90) (h2 : |angleDev cb d.direction| ≤ 90) :
    ((u, v), d) ∈ (prune_graph G minP).edges := by
  have htest : dirMarkTest G u v d = false := by
    simp only [dirMarkTest, hu, hv, hca, hcb]
    simp [not_lt.2 h1, not_lt.2 h2]
  have hdm : (u, v) ∉ directionMarked G := not_mem_directionMarked hnd hmem htest
  have hpm : (u, v) ∉ prunePass minP G.edges G (directionMarked G) := by
    intro hmem'
    rcases prunePass_mem_sup minP G.edges G (directionMarked G) (u, v) hmem' with h' | ⟨d', hd', hwd⟩
    · exact hdm h'
    · have hdd : d' = d := key_nodup_data_eq hnd hd' hmem
      rw [hdd] at hwd
      exact absurd hw (not_le.2 hwd)
  exact (mem_removeEdges _ _ _).2 ⟨hmem, hpm⟩

/-- Witness for C4 on the example network: the heavy, direction-consistent
edge `(0, 2)` survives pruning. -/
theorem directionally_consistent_heavy_edge_kept_witness :
    ((0, 2), ({ weight := 10, inverse_weight := 1/10, direction := 0 } : EdgeData)) ∈
      (prune_graph exGraph 2).edges :=
  directionally_consistent_heavy_edge_kept exGraph 2 0 2 ⟨10, 1/10, 0⟩ exNode exNode 0 0
    (by decide) (by decide) (by decide) (by decide) (by decide) rfl rfl (by decide) (by decide)

/-- C5: pruning is pure derivation — it never touches the node set
(isolated nodes stay) and only ever deletes whole edges, so the pruned
edge list is a sublist of the input's; the input snapshot itself is a
value the function never mutates (the embedding is a pure function of it,
mirroring the `G.copy()` calls of the code). -/
theorem prune_graph_nodes_eq_edges_subset (G : Digraph) (minP : ℚ) :
    (prune_graph G minP).nodes = G.nodes ∧
    ∀ e, e ∈ (prune_graph G minP).edges → e ∈ G.edges := by
  constructor
  · exact removeEdges_nodes _ _
  · intro e he
    exact ((mem_removeEdges _ _ _).1 he).1

/-- Witness for C5 on the example network. -/
theorem prune_graph_nodes_eq_edges_subset_witness :
    (prune_graph exGraph 2).nodes = exGraph.nodes ∧
    ((0, 2), ({ weight := 10, inverse_weight := 1/10, direction := 0 } : EdgeData)) ∈
      exGraph.edges :=
  ⟨(prune_graph_nodes_eq_edges_subset exGraph 2).1,
   (prune_graph_nodes_eq_edges_subset exGraph 2).2 _ (by decide)⟩

/-- Every entry of the passage accumulator keeps a positive count and a
non-loop key after an increment of a non-loop key. -/
theorem bump_invariant (k : Nat × Nat) (hk : k.1 ≠ k.2) :
    ∀ m : List ((Nat × Nat) × Nat), (∀ kv ∈ m, 1 ≤ kv.2 ∧ kv.1.1 ≠ kv.1.2) →
    ∀ kv ∈ bump m k, 1 ≤ kv.2 ∧ kv.1.1 ≠ kv.1.2 := by
  intro m
  induction m with
  | nil =>
    intro _ kv hkv
    simp only [bump, List.mem_singleton] at hkv
    subst hkv
    exact ⟨le_refl 1, hk⟩
  | cons e rest ih =>
    obtain ⟨k', n⟩ := e
    intro hm kv hkv
    simp only [bump] at hkv
    by_cases he : k' = k
    · rw [if_pos he] at hkv
      rcases List.mem_cons.1 hkv with h | h
      · subst h
        have h0 := hm (k', n) (List.mem_cons_self _ _)
        exact ⟨Nat.le_succ_of_le h0.1, h0.2⟩
      · exact hm kv (List.mem_cons_of_mem _ h)
    · rw [if_neg he] at hkv
      rcases List.mem_cons.1 hkv with h | h
      · subst h
        exact hm _ (List.mem_cons_self _ _)
      · exact ih (fun kv hkv => hm kv (List.mem_cons_of_mem _ hkv)) kv h

/-- The pair-accumulation step preserves the accumulator invariant (only
non-loop pairs are ever incremented). -/
theorem addPairs_invariant : ∀ (l : List Nat) (m : List ((Nat × Nat) × Nat)),
    (∀ kv ∈ m, 1 ≤ kv.2 ∧ kv.1.1 ≠ kv.1.2) →
    ∀ kv ∈ addPairs m l, 1 ≤ kv.2 ∧ kv.1.1 ≠ kv.1.2
  | a :: b :: rest, m, hm => by
    rw [show addPairs m (a :: b :: rest) =
        addPairs (if a ≠ b then bump m (a, b) else m) (b :: rest) from rfl]
    refine addPairs_invariant (b :: rest) _ ?_
    by_cases hab : a ≠ b
    · rw [if_pos hab]
      exact bump_invariant (a, b) hab m hm
    · rw [if_neg hab]
      exact hm
  | [], m, hm => by rw [show addPairs m [] = m from rfl]; exact hm
  | [a], m, hm => by rw [show addPairs m [a] = m from rfl]; exact hm
termination_by l _ _ => l.length

/-- Invariant of the whole `coord_dict`: positive counts, no self-loop key. -/
theorem buildDict_invariant (pls : List (List Nat)) :
    ∀ kv ∈ buildDict pls, 1 ≤ kv.2 ∧ kv.1.1 ≠ kv.1.2 := by
  have H := foldl_preserve (fun m => ∀ kv ∈ m, 1 ≤ kv.2 ∧ kv.1.1 ≠ kv.1.2)
    (fun m pl => if 1 < (dedupFirst pl).length then addPairs m (dedupFirst pl) else m)
    (by
      intro m pl hm
      show ∀ kv ∈ (if 1 < (dedupFirst pl).length then addPairs m (dedupFirst pl) else m),
        1 ≤ kv.2 ∧ kv.1.1 ≠ kv.1.2
      by_cases h : 1 < (dedupFirst pl).length
      · rw [if_pos h]
        exact addPairs_invariant (dedupFirst pl) m hm
      · rw [if_neg h]
        exact hm)
    pls []
    (by intro kv hkv; simp at hkv)
  exact H

/-- Every edge built by the graph builder has a non-loop key, inverse
weight equal to the reciprocal of its weight, and an integer weight of at
least 1. -/
theorem make_graph_edge_prop (nClusters : Nat) (attrs : Nat → NodeData)
    (bearing : Nat → Nat → ℚ) (pls : List (List Nat)) :
    ∀ e ∈ (make_graph_from_waypoints nClusters attrs bearing pls).edges,
      e.1.1 ≠ e.1.2 ∧ e.2.inverse_weight = 1 / e.2.weight ∧
        ∃ m : Nat, 1 ≤ m ∧ e.2.weight = m := by
  intro e he
  simp only [make_graph_from_waypoints, List.mem_map] at he
  obtain ⟨kv, hkv, rfl⟩ := he
  have h := buildDict_invariant pls kv hkv
  exact ⟨h.2, rfl, kv.2, h.1, rfl⟩

/-- One weight increment keeps every edge's inverse weight at 0 and its
weight a natural number. -/
theorem bumpEdgeWeight_pres {G : Digraph} (u v : Nat)
    (h : ∀ e ∈ G.edges, e.2.inverse_weight = 0 ∧ ∃ n : Nat, e.2.weight = n) :
    ∀ e ∈ (bumpEdgeWeight G u v).edges,
      e.2.inverse_weight = 0 ∧ ∃ n : Nat, e.2.weight = n := by
  intro e he
  simp only [bumpEdgeWeight, List.mem_map] at he
  obtain ⟨e', he', rfl⟩ := he
  obtain ⟨hinv, n, hn⟩ := h e' he'
  by_cases hk : e'.1 = (u, v)
  · rw [if_pos hk]
    exact ⟨hinv, n + 1, by push_cast [hn]; ring⟩
  · rw [if_neg hk]
    exact ⟨hinv, n, hn⟩

/-- Every edge that survives graph refinement carries inverse weight 0 and
a positive integer weight. -/
theorem refine_edges_invariant (G : Digraph) (paths : List (List Nat))
    (clip : Nat → Nat → ℚ × ℚ × ℚ) :
    ∀ e ∈ (refine_graph_from_paths G paths clip).graph.edges,
      e.2.inverse_weight = 0 ∧ ∃ n : Nat, 1 ≤ n ∧ e.2.weight = n := by
  have H := foldl_preserve
    (fun (st : Digraph × List ((Nat × Nat) × ℚ)) =>
      ∀ e ∈ st.1.edges, e.2.inverse_weight = 0 ∧ ∃ n : Nat, e.2.weight = n)
    (fun acc path =>
      (pathPairs path).foldl
        (fun acc2 uv =>
          let c := clip uv.1 uv.2
          (bumpEdgeWeight acc2.1 uv.1 uv.2,
           acc2.2 ++ [(uv, transitSpeed c.1 c.2.1 c.2.2)]))
        acc)
    (by
      intro a path ha
      exact foldl_preserve
        (fun (st : Digraph × List ((Nat × Nat) × ℚ)) =>
          ∀ e ∈ st.1.edges, e.2.inverse_weight = 0 ∧ ∃ n : Nat, e.2.weight = n)
        (fun acc2 uv =>
          let c := clip uv.1 uv.2
          (bumpEdgeWeight acc2.1 uv.1 uv.2,
           acc2.2 ++ [(uv, transitSpeed c.1 c.2.1 c.2.2)]))
        (fun a2 uv ha2 => bumpEdgeWeight_pres uv.1 uv.2 ha2)
        (pathPairs path) a ha)
    paths (resetWeights G, [])
    (by
      intro e he
      simp only [resetWeights, List.mem_map] at he
      obtain ⟨b, _, rfl⟩ := he
      exact ⟨rfl, 0, by norm_num⟩)
  intro e he
  simp only [refine_graph_from_paths, List.mem_filter] at he
  obtain ⟨hacc, hne⟩ := he
  obtain ⟨hinv, n, hn⟩ := H e hacc
  refine ⟨hinv, n, ?_, hn⟩
  rcases Nat.eq_zero_or_pos n with h0 | h1
  · subst h0
    rw [decide_eq_true_eq] at hne
    rw [hn] at hne
    norm_num at hne
  · exact h1

/-- C2, counterexample to the claim as stated.  `refine_graph_from_paths`
resets both `weight` and `inverse_weight` to 0 and only re-accumulates
`weight`, so a refined retained edge of weight 1 carries
`inverse_weight = 0 ≠ 1/1`. -/
theorem refined_inverse_weight_counterexample :
    ((0, 1), ({ weight := 1, inverse_weight := 0, direction := 0 } : EdgeData)) ∈
      (refine_graph_from_paths exGraph [[0, 1]] exClip).graph.edges ∧
    ¬((0 : ℚ) = 1 / (1 : ℚ)) := by
  decide

/-- C2 (amended): in the raw graph every edge has
`inverse_weight = 1/weight` with `weight ≥ 1`; pruning only ever keeps
edges of the input graph unchanged, so prunings of the raw graph inherit
this; the refined graph instead carries, on every retained edge, a weight
of at least 1 but an `inverse_weight` of 0 — both were reset to 0 and
only `weight` is re-accumulated. -/
theorem inverse_weight_invariants :
    (∀ (nClusters : Nat) (attrs : Nat → NodeData) (bearing : Nat → Nat → ℚ)
       (pls : List (List Nat)) e,
       e ∈ (make_graph_from_waypoints nClusters attrs bearing pls).edges →
       e.2.inverse_weight = 1 / e.2.weight ∧ 1 ≤ e.2.weight) ∧
    (∀ (G : Digraph) (minP : ℚ) e, e ∈ (prune_graph G minP).edges → e ∈ G.edges) ∧
    (∀ (G : Digraph) (paths : List (List Nat)) (clip : Nat → Nat → ℚ × ℚ × ℚ) e,
       e ∈ (refine_graph_from_paths G paths clip).graph.edges →
       1 ≤ e.2.weight ∧ e.2.inverse_weight = 0) := by
  refine ⟨?_, ?_, ?_⟩
  · intro nClusters attrs bearing pls e he
    obtain ⟨_, hinv, m, hm, hw⟩ := make_graph_edge_prop nClusters attrs bearing pls e he
    refine ⟨hinv, ?_⟩
    rw [hw]
    exact_mod_cast hm
  · intro G minP e he
    exact ((mem_removeEdges _ _ _).1 he).1
  · intro G paths clip e he
    obtain ⟨hinv, n, hn, hw⟩ := refine_edges_invariant G paths clip e he
    refine ⟨?_, hinv⟩
    rw [hw]
    exact_mod_cast hn

/-- Witness for the amended weight/inverse-weight invariants on concrete
builds: a raw edge of the builder, an edge preserved by pruning, and a
refined retained edge. -/
theorem inverse_weight_invariants_witness :
    ((1 : ℚ) = 1 / 1 ∧ (1 : ℚ) ≤ 1) ∧
    ((0, 2), ({ weight := 10, inverse_weight := 1/10, direction := 0 } : EdgeData)) ∈
      exGraph.edges ∧
    ((1 : ℚ) ≤ 1 ∧ (0 : ℚ) = 0) :=
  ⟨inverse_weight_invariants.1 3 (fun _ => exNode) (fun _ _ => 0) [[0, 1, 2]]
      ((0, 1), ⟨1, 1, 0⟩) (by decide),
   inverse_weight_invariants.2.1 exGraph 2 ((0, 2), ⟨10, 1/10, 0⟩) (by decide),
   inverse_weight_invariants.2.2 exGraph [[0, 1]] exClip ((0, 1), ⟨1, 0, 0⟩) (by decide)⟩

/-- C6: the graph builder creates no self-loop (consecutive equal
passages are skipped), and every edge's weight is an integer passage
count of at least 1. -/
theorem make_graph_no_self_loops_weight_pos (nClusters : Nat) (attrs : Nat → NodeData)
    (bearing : Nat → Nat → ℚ) (pls : List (List Nat)) :
    ∀ e ∈ (make_graph_from_waypoints nClusters attrs bearing pls).edges,
      e.1.1 ≠ e.1.2 ∧ ∃ m : Nat, 1 ≤ m ∧ e.2.weight = m := by
  intro e he
  obtain ⟨hne, _, m, hm, hw⟩ := make_graph_edge_prop nClusters attrs bearing pls e he
  exact ⟨hne, m, hm, hw⟩

/-- Witness for C6 on a concrete build from one passage sequence. -/
theorem make_graph_no_self_loops_weight_pos_witness :
    (0 : Nat) ≠ 1 ∧ ∃ m : Nat, 1 ≤ m ∧
      (({ weight := 1, inverse_weight := 1, direction := 0 } : EdgeData)).weight = m :=
  make_graph_no_self_loops_weight_pos 3 (fun _ => exNode) (fun _ _ => 0) [[0, 1, 2]]
    ((0, 1), ⟨1, 1, 0⟩) (by decide)

/-- C8: refining against an empty path list removes every edge (none was
traversed) and keeps the node set of the base graph unchanged. -/
theorem refine_empty_paths_zero_edges (G : Digraph) (clip : Nat → Nat → ℚ × ℚ × ℚ) :
    (refine_graph_from_paths G [] clip).graph.edges = [] ∧
    (refine_graph_from_paths G [] clip).graph.nodes = G.nodes := by
  constructor
  · simp only [refine_graph_from_paths, List.foldl_nil]
    rw [List.filter_eq_nil_iff]
    intro a ha
    simp only [resetWeights, List.mem_map] at ha
    obtain ⟨b, _, rfl⟩ := ha
    simp
  · rfl

/-- C9: the transit-speed computation returns 0 whenever the elapsed time
of the clipped sub-segment is not positive — it never divides by a
non-positive elapsed time — and every speed sample the refinement records
is exactly this guarded value of its edge's clipping. -/
theorem transit_speed_guard :
    (∀ len t1 t2 : ℚ, t2 - t1 ≤ 0 → transitSpeed len t1 t2 = 0) ∧
    (∀ (G : Digraph) (paths : List (List Nat)) (clip : Nat → Nat → ℚ × ℚ × ℚ),
      ∀ s ∈ (refine_graph_from_paths G paths clip).speeds,
        s.2 = transitSpeed (clip s.1.1 s.1.2).1 (clip s.1.1 s.1.2).2.1
          (clip s.1.1 s.1.2).2.2) := by
  constructor
  · intro len t1 t2 h
    rw [transitSpeed, if_neg (not_lt.2 (by linarith))]
  · intro G paths clip
    have H := foldl_preserve
      (fun (st : Digraph × List ((Nat × Nat) × ℚ)) =>
        ∀ s ∈ st.2, s.2 = transitSpeed (clip s.1.1 s.1.2).1 (clip s.1.1 s.1.2).2.1
          (clip s.1.1 s.1.2).2.2)
      (fun acc path =>
        (pathPairs path).foldl
          (fun acc2 uv =>
            let c := clip uv.1 uv.2
            (bumpEdgeWeight acc2.1 uv.1 uv.2,
             acc2.2 ++ [(uv, transitSpeed c.1 c.2.1 c.2.2)]))
          acc)
      (by
        intro a path ha
        refine foldl_preserve
          (fun (st : Digraph × List ((Nat × Nat) × ℚ)) =>
            ∀ s ∈ st.2, s.2 = transitSpeed (clip s.1.1 s.1.2).1 (clip s.1.1 s.1.2).2.1
              (clip s.1.1 s.1.2).2.2)
          (fun acc2 uv =>
            let c := clip uv.1 uv.2
            (bumpEdgeWeight acc2.1 uv.1 uv.2,
             acc2.2 ++ [(uv, transitSpeed c.1 c.2.1 c.2.2)]))
          ?_ (pathPairs path) a ha
        intro a2 uv ha2
        intro s hs
        simp only [List.mem_append, List.mem_singleton] at hs
        rcases hs with hs | hs
        · exact ha2 s hs
        · subst hs
          rfl)
      paths (resetWeights G, [])
      (by intro s hs; simp at hs)
    intro s hs
    simp only [refine_graph_from_paths] at hs
    exact H s hs

/-- Witness for C9: with equal timestamps the recorded sample is 0. -/
theorem transit_speed_guard_witness :
    transitSpeed 4 3 1 = 0 ∧
    (((0, 1), (0 : ℚ)) ∈ (refine_graph_from_paths exGraph [[0, 1]] exClip).speeds →
      ((0, 1), (0 : ℚ)).2 = transitSpeed 4 2 2) :=
  ⟨transit_speed_guard.1 4 3 1 (by norm_num),
   fun h => transit_speed_guard.2 exGraph [[0, 1]] exClip ((0, 1), 0) h⟩

/-- `getLast?` of a nonempty list is its `getLastD`. -/
theorem getLast?_of_ne_nil {l : List Nat} (h : l ≠ []) :
    l.getLast? = some (l.getLastD 0) := by
  cases hl : l.getLast? with
  | none =>
    have hs := (List.getLast?_isSome (l := l)).2 h
    rw [hl] at hs
    simp at hs
  | some a =>
    rw [List.getLastD_eq_getLast?, hl]
    rfl

/-- C10: whatever the channel-graph test and the SSPD comparison decide,
the hop-skipping refinement pass keeps the first waypoint of the stitched
path (it seeds the result) and its last waypoint (re-appended whenever the
sliding-triple loop dropped it). -/
theorem refined_path_endpoints (valid : Nat → Nat → Bool)
    (better : Nat → Nat → Nat → Bool) (path : List Nat) (h : path ≠ []) :
    (refinePathPass valid better path).head? = path.head? ∧
    (refinePathPass valid better path).getLast? = path.getLast? := by
  obtain ⟨p0, rest, rfl⟩ := List.exists_cons_of_ne_nil h
  simp only [refinePathPass]
  by_cases hc : (p0 :: refineAux valid better (p0 :: rest)).getLastD 0 ≠
      (p0 :: rest).getLastD 0
  · rw [if_pos hc]
    constructor
    · simp
    · rw [List.getLast?_concat, getLast?_of_ne_nil (List.cons_ne_nil p0 rest)]
  · rw [if_neg hc]
    push_neg at hc
    constructor
    · simp
    · rw [getLast?_of_ne_nil (List.cons_ne_nil p0 (refineAux valid better (p0 :: rest))),
        hc, ← getLast?_of_ne_nil (List.cons_ne_nil p0 rest)]

/-- Witness for C10 on a concrete path where the middle hop is skipped. -/
theorem refined_path_endpoints_witness :
    (refinePathPass (fun _ _ => true) (fun _ _ _ => true) [1, 2, 3]).head? = some 1 ∧
    (refinePathPass (fun _ _ => true) (fun _ _ _ => true) [1, 2, 3]).getLast? = some 3 := by
  have h := refined_path_endpoints (fun _ _ => true) (fun _ _ _ => true) [1, 2, 3]
    (by decide)
  exact ⟨h.1.trans (by decide), h.2.trans (by decide)⟩

/-- C1: with at least 2 reconciled passages and a raising per-pair matching
step, the matcher falls back to the pruned graph's shortest path between
the first and last passage with outcome `attempt` when one exists and to
outcome `noPath` otherwise; and any result tagged `noPath` or
`noIntersects` carries an empty path, a `NaN` (modelled `none`) SSPD and
coverage 0. -/
theorem trajectory_fallback_outcomes (G : Digraph) (passages : List Nat)
    (coreMatch : Except Unit (List Nat × ℚ × ℚ)) (fallbackEval : List Nat → ℚ × ℚ) :
    (2 ≤ passages.length → coreMatch = Except.error () →
      (∀ p, shortestPath G (passages.headD 0) (passages.getLastD 0) = some p →
        (trajectory_to_path_sspd G passages coreMatch fallbackEval).message = Outcome.attempt ∧
        (trajectory_to_path_sspd G passages coreMatch fallbackEval).path = p) ∧
      (shortestPath G (passages.headD 0) (passages.getLastD 0) = none →
        (trajectory_to_path_sspd G passages coreMatch fallbackEval).message = Outcome.noPath)) ∧
    ((trajectory_to_path_sspd G passages coreMatch fallbackEval).message = Outcome.noPath ∨
      (trajectory_to_path_sspd G passages coreMatch fallbackEval).message = Outcome.noIntersects →
      (trajectory_to_path_sspd G passages coreMatch fallbackEval).path = [] ∧
      (trajectory_to_path_sspd G passages coreMatch fallbackEval).sspd = none ∧
      (trajectory_to_path_sspd G passages coreMatch fallbackEval).fraction_covered = 0) := by
  by_cases h2 : 2 ≤ passages.length
  · cases coreMatch with
    | ok r =>
      have hr : trajectory_to_path_sspd G passages (Except.ok r) fallbackEval =
          { message := .success, path := r.1, sspd := some r.2.1,
            fraction_covered := r.2.2 } := by
        simp only [trajectory_to_path_sspd, if_pos h2]
      constructor
      · intro _ hcm
        exact absurd hcm (by simp)
      · intro hmsg
        rw [hr] at hmsg
        simp at hmsg
    | error u =>
      cases hsp : shortestPath G (passages.headD 0) (passages.getLastD 0) with
      | some p =>
        have hr : trajectory_to_path_sspd G passages (Except.error u) fallbackEval =
            { message := .attempt, path := p, sspd := some (fallbackEval p).1,
              fraction_covered := (fallbackEval p).2 } := by
          simp only [trajectory_to_path_sspd, if_pos h2, hsp]
        refine ⟨fun _ _ => ⟨fun q hq => ?_, fun hnone => ?_⟩, fun hmsg => ?_⟩
        · injection hq with hq
          subst hq
          rw [hr]
          exact ⟨rfl, rfl⟩
        · exact Option.noConfusion hnone
        · rw [hr] at hmsg
          simp at hmsg
      | none =>
        have hr : trajectory_to_path_sspd G passages (Except.error u) fallbackEval =
            { message := .noPath, path := [], sspd := none, fraction_covered := 0 } := by
          simp only [trajectory_to_path_sspd, if_pos h2, hsp]
        refine ⟨fun _ _ => ⟨fun q hq => ?_, fun _ => ?_⟩, fun _ => ?_⟩
        · exact Option.noConfusion hq
        · rw [hr]
        · rw [hr]
          exact ⟨rfl, rfl, rfl⟩
  · have hr : trajectory_to_path_sspd G passages coreMatch fallbackEval =
        { message := .noIntersects, path := [], sspd := none, fraction_covered := 0 } := by
      simp only [trajectory_to_path_sspd, if_neg h2]
    constructor
    · intro hcontra
      exact absurd hcontra h2
    · intro _
      rw [hr]
      exact ⟨rfl, rfl, rfl⟩

theorem distSq_nonneg (p q : ℚ × ℚ) : 0 ≤ distSq p q := by
  unfold distSq
  positivity

theorem distSq_self (p : ℚ × ℚ) : distSq p p = 0 := by
  unfold distSq
  ring

theorem distSqPointSeg_nonneg (p a b : ℚ × ℚ) : 0 ≤ distSqPointSeg p a b := by
  unfold distSqPointSeg
  dsimp only
  split
  · exact distSq_nonneg p a
  · exact distSq_nonneg p _

/-- A point is at (squared) distance 0 from any segment it starts. -/
theorem distSqPointSeg_left (p b : ℚ × ℚ) : distSqPointSeg p p b = 0 := by
  unfold distSqPointSeg
  dsimp only
  split
  · exact distSq_self p
  · have ht : ((p.1 - p.1) * (b.1 - p.1) + (p.2 - p.2) * (b.2 - p.2)) /
        ((b.1 - p.1) ^ 2 + (b.2 - p.2) ^ 2) = 0 := by
      rw [show (p.1 - p.1) * (b.1 - p.1) + (p.2 - p.2) * (b.2 - p.2) = 0 by ring, zero_div]
    rw [ht, show max 0 (min 1 (0 : ℚ)) = 0 by norm_num]
    unfold distSq
    ring

/-- A point is at (squared) distance 0 from any segment it ends. -/
theorem distSqPointSeg_right (p a : ℚ × ℚ) : distSqPointSeg p a p = 0 := by
  unfold distSqPointSeg
  dsimp only
  split
  · next h => exact h
  · next h =>
    have ht : ((p.1 - a.1) * (p.1 - a.1) + (p.2 - a.2) * (p.2 - a.2)) /
        ((p.1 - a.1) ^ 2 + (p.2 - a.2) ^ 2) = 1 := by
      rw [show (p.1 - a.1) * (p.1 - a.1) + (p.2 - a.2) * (p.2 - a.2) =
          (p.1 - a.1) ^ 2 + (p.2 - a.2) ^ 2 by ring]
      exact div_self h
    rw [ht, show max 0 (min 1 (1 : ℚ)) = 1 by norm_num]
    unfold distSq
    ring

theorem foldl_min_le : ∀ (l : List ℚ) (a : ℚ),
    l.foldl min a ≤ a ∧ ∀ x ∈ l, l.foldl min a ≤ x := by
  intro l
  induction l with
  | nil =>
    intro a
    exact ⟨le_refl a, by intro x hx; simp at hx⟩
  | cons y ys ih =>
    intro a
    constructor
    · calc (y :: ys).foldl min a = ys.foldl min (min a y) := rfl
        _ ≤ min a y := (ih (min a y)).1
        _ ≤ a := min_le_left a y
    · intro x hx
      rcases List.mem_cons.1 hx with h | h
      · subst h
        exact le_trans (ih (min a x)).1 (min_le_right a x)
      · exact (ih (min a y)).2 x h

theorem le_foldl_min : ∀ (l : List ℚ) (a c : ℚ), c ≤ a → (∀ x ∈ l, c ≤ x) →
    c ≤ l.foldl min a := by
  intro l
  induction l with
  | nil =>
    intro a c h _
    exact h
  | cons y ys ih =>
    intro a c hca hl
    show c ≤ ys.foldl min (min a y)
    exact ih _ c (le_min hca (hl y (List.mem_cons_self _ _)))
      (fun x hx => hl x (List.mem_cons_of_mem _ hx))

/-- A list of nonnegative values containing 0 has minimum 0. -/
theorem minList_eq_zero {l : List ℚ} (h0 : ∀ x ∈ l, 0 ≤ x) (hex : ∃ x ∈ l, x = 0) :
    minList l = 0 := by
  obtain ⟨x, hxl, hx0⟩ := hex
  cases l with
  | nil => simp at hxl
  | cons y ys =>
    apply le_antisymm
    · show ys.foldl min y ≤ 0
      rcases List.mem_cons.1 hxl with h | h
      · rw [← hx0, h]
        exact (foldl_min_le ys y).1
      · rw [← hx0]
        exact (foldl_min_le ys y).2 x h
    · exact le_foldl_min ys y 0 (h0 y (List.mem_cons_self _ _))
        (fun z hz => h0 z (List.mem_cons_of_mem _ hz))

/-- Every point of a curve of at least two samples is an endpoint of one
of the curve's segments. -/
theorem mem_seg_endpoint : ∀ (A : List (ℚ × ℚ)) (p : ℚ × ℚ), p ∈ A → 2 ≤ A.length →
    ∃ s ∈ segsOf A, s.1 = p ∨ s.2 = p := by
  intro A
  induction A with
  | nil =>
    intro p hp _
    simp at hp
  | cons a rest ih =>
    intro p hp hlen
    cases rest with
    | nil => simp at hlen
    | cons b rest' =>
      rcases List.mem_cons.1 hp with h | h
      · exact ⟨(a, b), List.mem_cons_self _ _, Or.inl h.symm⟩
      · cases rest' with
        | nil =>
          have hb : p = b := by simpa using h
          exact ⟨(a, b), List.mem_cons_self _ _, Or.inr hb.symm⟩
        | cons c rest'' =>
          obtain ⟨s, hs, hsp⟩ := ih p h (by simp)
          exact ⟨s, List.mem_cons_of_mem _ hs, hsp⟩

/-- A sample point of a curve is at distance 0 from its own curve. -/
theorem pointToCurveSq_self (A : List (ℚ × ℚ)) (p : ℚ × ℚ) (hp : p ∈ A) :
    pointToCurveSq p A = 0 := by
  cases A with
  | nil => simp at hp
  | cons a rest =>
    cases rest with
    | nil =>
      have ha : p = a := by simpa using hp
      subst ha
      rw [show pointToCurveSq p [p] = distSq p p from rfl]
      exact distSq_self p
    | cons b rest' =>
      rw [show pointToCurveSq p (a :: b :: rest') =
          minList ((segsOf (a :: b :: rest')).map (fun s => distSqPointSeg p s.1 s.2))
          from rfl]
      apply minList_eq_zero
      · intro x hx
        simp only [List.mem_map] at hx
        obtain ⟨s, _, rfl⟩ := hx
        exact distSqPointSeg_nonneg p s.1 s.2
      · obtain ⟨s, hs, hsp⟩ := mem_seg_endpoint (a :: b :: rest') p hp (by simp)
        refine ⟨distSqPointSeg p s.1 s.2, List.mem_map.2 ⟨s, hs, rfl⟩, ?_⟩
        rcases hsp with h | h
        · rw [h]
          exact distSqPointSeg_left p s.2
        · rw [h]
          exact distSqPointSeg_right p s.1

/-- The mean distance of a curve to itself vanishes. -/
theorem meanDistTo_self (A : List (ℚ × ℚ)) : meanDistTo A A = 0 := by
  unfold meanDistTo
  have hs : (A.map (fun p => pointToCurveSq p A)).sum = 0 := by
    apply List.sum_eq_zero
    intro x hx
    simp only [List.mem_map] at hx
    obtain ⟨p, hp, rfl⟩ := hx
    exact pointToCurveSq_self A p hp
  rw [hs, zero_div]

/-- C7: the SSPD model is symmetric in its two curves, and a curve is at
SSPD 0 from itself: each of its sample points lies on one of its own
segments.  (With `0 / 0 = 0` in `ℚ` this also covers the empty curve.) -/
theorem sspd_symm_self_zero :
    (∀ A B : List (ℚ × ℚ), sspd A B = sspd B A) ∧
    (∀ A : List (ℚ × ℚ), sspd A A = 0) := by
  constructor
  · intro A B
    unfold sspd
    rw [add_comm]
  · intro A
    unfold sspd
    rw [meanDistTo_self]
    norm_num

/-- Witness for C1: a raising matching step on the example network falls
back to the direct shortest path `[0, 1]` with outcome `attempt`. -/
theorem trajectory_fallback_outcomes_witness :
    (trajectory_to_path_sspd exGraph [0, 1] (Except.error ()) exEval).message =
        Outcome.attempt ∧
    (trajectory_to_path_sspd exGraph [0, 1] (Except.error ()) exEval).path = [0, 1] :=
  ((trajectory_fallback_outcomes exGraph [0, 1] (Except.error ()) exEval).1
    (by decide) rfl).1 [0, 1] (by decide)

end MTN
